import Mathlib

/- Formal model of the NoteBot note-structuring core (app.py), embedded at the
   level of Unicode code-point lists (`List Char`), together with theorems about
   the strict section-rebuilder, the surrounding per-file processing pipeline,
   and the permissive post-processor described by the specification. -/

set_option autoImplicit false
set_option maxRecDepth 100000

/-! ### Python string primitives -/

/-- Membership of a code point in a closed range, as a Bool. -/
def inRange (lo hi n : Nat) : Bool := decide (lo ≤ n ∧ n ≤ hi)

/-- Python `str.isspace` (the set stripped by `str.strip()`): ASCII whitespace,
the C0/C1 separators, NEL, NBSP and the Unicode space category. -/
def pyIsSpace (c : Char) : Bool :=
  inRange 9 13 c.toNat || inRange 28 32 c.toNat || c.toNat == 0x85 ||
  c.toNat == 0xA0 || c.toNat == 0x1680 || inRange 0x2000 0x200A c.toNat ||
  c.toNat == 0x2028 || c.toNat == 0x2029 || c.toNat == 0x202F ||
  c.toNat == 0x205F || c.toNat == 0x3000

/-- Python `str.strip()` on a list of code points. -/
def pyStrip (cs : List Char) : List Char :=
  ((cs.dropWhile pyIsSpace).reverse.dropWhile pyIsSpace).reverse

/-- The line boundaries recognised by Python `str.splitlines()`. -/
def pyIsLineBreak (c : Char) : Bool :=
  c.toNat == 10 || c.toNat == 11 || c.toNat == 12 || c.toNat == 13 ||
  c.toNat == 28 || c.toNat == 29 || c.toNat == 30 || c.toNat == 0x85 ||
  c.toNat == 0x2028 || c.toNat == 0x2029

/-- Worker for `pySplitlines`; `acc` holds the current line reversed.
A final unterminated line is emitted only when non-empty, and `\r\n`
counts as a single boundary, as in Python. -/
def splitlinesAux : List Char → List Char → List (List Char)
  | [], acc => if acc.isEmpty then [] else [acc.reverse]
  | '\r' :: '\n' :: rest, acc => acc.reverse :: splitlinesAux rest []
  | c :: rest, acc =>
    if pyIsLineBreak c then acc.reverse :: splitlinesAux rest []
    else splitlinesAux rest (c :: acc)

/-- Python `str.splitlines()` on a list of code points. -/
def pySplitlines (cs : List Char) : List (List Char) := splitlinesAux cs []

/-- The suffix of `hay` beginning at the first occurrence of `needle`
(`none` when `needle` does not occur).  `hay[hay.find(needle):]` in Python,
with `none` standing for a `find` result of `-1`. -/
def findSuffixFrom (needle : List Char) : List Char → Option (List Char)
  | [] => if needle.isPrefixOf ([] : List Char) then some [] else none
  | c :: rest =>
    if needle.isPrefixOf (c :: rest) then some (c :: rest)
    else findSuffixFrom needle rest

/-! ### The strict section rebuilder (`text_to_project_notes`, app.py 133-191) -/

/-- The title marker line `"# Project Title"`. -/
def titleMarkerChars : List Char := "# Project Title".data

/-- The fixed ordered required sections (app.py 147-155). -/
def required_sections : List String :=
  ["Goals / Objectives",
   "Key Features or Deliverables",
   "Tasks and Steps",
   "Estimated Timeline / Deadlines",
   "Resources / Tools Needed",
   "Potential Risks / Challenges",
   "Next Actions"]

/-- Placeholders for missing sections (app.py 223-231). -/
def placeholder_text : List (String × String) :=
  [("Goals / Objectives", "Define the main purpose and goals."),
   ("Key Features or Deliverables", "List expected outputs or features."),
   ("Tasks and Steps", "Break down the work into steps."),
   ("Estimated Timeline / Deadlines", "Set realistic deadlines."),
   ("Resources / Tools Needed", "Identify required tools or access."),
   ("Potential Risks / Challenges", "Note possible obstacles."),
   ("Next Actions", "List immediate next steps.")]

/-- `f"## {section}"`: the header line of a required section. -/
def headerLine (s : String) : List Char := ("## " ++ s).data

/-- The header lines of all required sections, in order. -/
def allHeaders : List (List Char) := required_sections.map headerLine

/-- Anchoring step (app.py 134-136): slice from the first occurrence of the
title marker, or keep the whole text when it is absent. -/
def anchorTitle (cs : List Char) : List Char :=
  match findSuffixFrom titleMarkerChars cs with
  | some suf => suf
  | none => cs

/-- Line normalisation (app.py 139): split into lines, strip each, drop
blank lines. -/
def normalizeLines (cs : List Char) : List (List Char) :=
  ((pySplitlines cs).map pyStrip).filter (fun l => !l.isEmpty)

/-- Formatting of one title-block line (app.py 164): lines already starting
with `-` or `*` are kept, all others are promoted to bullets. -/
def titleFmt (l : List Char) : List Char :=
  if "-".data.isPrefixOf l || "*".data.isPrefixOf l then l else '-' :: ' ' :: l

/-- Title block collection (app.py 159-164): skip `"# "` lines, stop at the
first `"## "` line, format everything else. -/
def titleLinesOf : List (List Char) → List (List Char)
  | [] => []
  | l :: rest =>
    if "# ".data.isPrefixOf l then titleLinesOf rest
    else if "## ".data.isPrefixOf l then []
    else titleFmt l :: titleLinesOf rest

/-- The default title bullet used when no title lines were found
(app.py 166). -/
def defaultTitleBullet : List Char := "- Project enhancement".data

/-- Content-line classification (app.py 182): lines starting with `"- "`,
`"* "` or a digit are kept as they are. -/
def keepLine (l : List Char) : Bool :=
  "- ".data.isPrefixOf l || "* ".data.isPrefixOf l ||
    (match l with
     | [] => false
     | c :: _ => c.isDigit)

/-- Formatting of one section content line (app.py 182-185). -/
def fmtLine (l : List Char) : List Char :=
  if keepLine l then l else '-' :: ' ' :: l

/-- The per-section scan (app.py 174-185): an exact match of the header
activates collection (and is itself skipped, also when repeated); while
collecting, a `"## "` line stops the scan and every other line is collected
after formatting. -/
def sectionScan (header : List Char) : List (List Char) → Bool → List (List Char)
  | [], _ => []
  | l :: rest, inSection =>
    if l = header then sectionScan header rest true
    else if inSection && "## ".data.isPrefixOf l then []
    else if inSection then fmtLine l :: sectionScan header rest inSection
    else sectionScan header rest inSection

/-- A section's placeholder bullet line `f"- {placeholder_text[section]}"`. -/
def placeholderLine (s : String) : List Char :=
  '-' :: ' ' :: ((List.lookup s placeholder_text).getD "").data

/-- A section's final content (app.py 189): the collected content, or the
placeholder bullet when nothing was collected. -/
def sectionContent (lines : List (List Char)) (s : String) : List (List Char) :=
  if sectionScan (headerLine s) lines false = [] then [placeholderLine s]
  else sectionScan (headerLine s) lines false

/-- A rebuilt section block (app.py 188-189): header plus content. -/
def sectionBlock (lines : List (List Char)) (s : String) : List (List Char) :=
  headerLine s :: sectionContent lines s

/-- All rebuilt section blocks, in the fixed configured order. -/
def sectionBlocksOf (lines : List (List Char)) : List (List Char) :=
  (required_sections.map (sectionBlock lines)).flatten

/-- The full rebuilt document as a list of lines (app.py 139-189). -/
def structuredLines (ai : List Char) : List (List Char) :=
  titleMarkerChars ::
    ((if titleLinesOf (normalizeLines (anchorTitle ai)) = [] then [defaultTitleBullet]
      else titleLinesOf (normalizeLines (anchorTitle ai))) ++
     sectionBlocksOf (normalizeLines (anchorTitle ai)))

/-- `"\n".join(final_lines)` (app.py 191). -/
def joinNL : List (List Char) → List Char
  | [] => []
  | [l] => l
  | l :: ls => l ++ '\n' :: joinNL ls

/-- The lines of the strict algorithm's output for a model response `r`
(the response is stripped first, app.py 131). -/
def outputLines (r : String) : List (List Char) :=
  structuredLines (pyStrip r.data)

/-- The strict section rebuilder: model response in, final document out
(app.py 131-191, the non-raising path). -/
def text_to_project_notes (r : String) : String :=
  String.mk (joinNL (outputLines r))

/-! ### Line predicates -/

/-- A line whose first character is a bullet marker. -/
def bulletHead (l : List Char) : Bool :=
  match l with
  | [] => false
  | c :: _ => c == '-' || c == '*'

/-- A line whose first character is a bullet marker or a digit. -/
def bulletish (l : List Char) : Bool :=
  match l with
  | [] => false
  | c :: _ => c == '-' || c == '*' || c.isDigit

/-- A structurally relevant output line: the title marker or a required
section header. -/
def specialLine (l : List Char) : Bool :=
  decide (l = titleMarkerChars ∨ l ∈ allHeaders)

/-- A non-empty line with no surrounding whitespace and no line-break
characters: exactly the lines `normalizeLines` can produce. -/
def cleanLine (l : List Char) : Bool :=
  !l.isEmpty &&
  (match l.head? with | none => false | some c => !pyIsSpace c) &&
  (match l.getLast? with | none => false | some c => !pyIsSpace c) &&
  l.all (fun c => !pyIsLineBreak c)

/-- A one-character needle matches exactly the lists starting with it. -/
lemma isPrefixOf_one {a : Char} {l : List Char} (h : List.isPrefixOf [a] l = true) :
    ∃ t, l = a :: t := by
  cases l with
  | nil => simp [List.isPrefixOf] at h
  | cons c cs =>
    simp only [List.isPrefixOf, Bool.and_eq_true, beq_iff_eq] at h
    exact ⟨cs, by rw [h.1]⟩

/-- A two-character needle matches exactly the lists starting with it. -/
lemma isPrefixOf_two {a b : Char} {l : List Char}
    (h : List.isPrefixOf [a, b] l = true) : ∃ t, l = a :: b :: t := by
  cases l with
  | nil => simp [List.isPrefixOf] at h
  | cons c cs =>
    cases cs with
    | nil => simp [List.isPrefixOf] at h
    | cons d ds =>
      simp only [List.isPrefixOf, Bool.and_eq_true, beq_iff_eq] at h
      exact ⟨ds, by rw [h.1, h.2.1]⟩

lemma bulletHead_bulletish {l : List Char} (h : bulletHead l = true) :
    bulletish l = true := by
  cases l with
  | nil => simp [bulletHead] at h
  | cons c cs =>
    simp only [bulletHead, Bool.or_eq_true, beq_iff_eq] at h
    rcases h with rfl | rfl <;> simp [bulletish]

lemma keepLine_bulletish {l : List Char} (h : keepLine l = true) :
    bulletish l = true := by
  have hd1 : "- ".data = ['-', ' '] := rfl
  have hd2 : "* ".data = ['*', ' '] := rfl
  cases l with
  | nil => simp [keepLine, List.isPrefixOf] at h
  | cons c cs =>
    simp only [keepLine, hd1, hd2] at h
    rcases Bool.or_eq_true_iff.mp h with h12 | hdig
    · rcases Bool.or_eq_true_iff.mp h12 with h | h
      · obtain ⟨t, ht⟩ := isPrefixOf_two h
        injection ht with h1 _
        simp [bulletish, h1]
      · obtain ⟨t, ht⟩ := isPrefixOf_two h
        injection ht with h1 _
        simp [bulletish, h1]
    · have hdig2 : c.isDigit = true := hdig
      simp [bulletish, hdig2]

lemma bulletHead_titleFmt (l : List Char) : bulletHead (titleFmt l) = true := by
  have hd1 : "-".data = ['-'] := rfl
  have hd2 : "*".data = ['*'] := rfl
  unfold titleFmt
  split
  · next h =>
    rw [hd1, hd2] at h
    rcases Bool.or_eq_true_iff.mp h with h1 | h1
    · obtain ⟨t, rfl⟩ := isPrefixOf_one h1
      simp [bulletHead]
    · obtain ⟨t, rfl⟩ := isPrefixOf_one h1
      simp [bulletHead]
  · simp [bulletHead]

lemma keepLine_fmtLine (l : List Char) : keepLine (fmtLine l) = true := by
  unfold fmtLine
  split
  · next h => exact h
  · simp [keepLine, List.isPrefixOf]

/-- Every line collected into the title block is `titleFmt` of an input
line. -/
lemma titleLinesOf_mem : ∀ (ls : List (List Char)) (l : List Char),
    l ∈ titleLinesOf ls → ∃ l0 ∈ ls, l = titleFmt l0 := by
  intro ls
  induction ls with
  | nil => intro l h; simp [titleLinesOf] at h
  | cons a rest ih =>
    intro l h
    simp only [titleLinesOf] at h
    split at h
    · rcases ih l h with ⟨l0, hl0, rfl⟩
      exact ⟨l0, List.mem_cons_of_mem _ hl0, rfl⟩
    · split at h
      · simp at h
      · rcases List.mem_cons.mp h with rfl | h1
        · exact ⟨a, List.mem_cons_self .., rfl⟩
        · rcases ih l h1 with ⟨l0, hl0, rfl⟩
          exact ⟨l0, List.mem_cons_of_mem _ hl0, rfl⟩

/-- Every line collected by the section scan is `fmtLine` of an input
line. -/
lemma sectionScan_mem : ∀ (ls : List (List Char)) (header : List Char) (b : Bool)
    (l : List Char), l ∈ sectionScan header ls b → ∃ l0 ∈ ls, l = fmtLine l0 := by
  intro ls
  induction ls with
  | nil => intro header b l h; simp [sectionScan] at h
  | cons a rest ih =>
    intro header b l h
    simp only [sectionScan] at h
    split at h
    · rcases ih header true l h with ⟨l0, hl0, rfl⟩
      exact ⟨l0, List.mem_cons_of_mem _ hl0, rfl⟩
    · split at h
      · simp at h
      · split at h
        · rcases List.mem_cons.mp h with rfl | h1
          · exact ⟨a, List.mem_cons_self .., rfl⟩
          · rcases ih header _ l h1 with ⟨l0, hl0, rfl⟩
            exact ⟨l0, List.mem_cons_of_mem _ hl0, rfl⟩
        · rcases ih header _ l h with ⟨l0, hl0, rfl⟩
          exact ⟨l0, List.mem_cons_of_mem _ hl0, rfl⟩

/-- Every line of a rebuilt section body is the section's placeholder or a
formatted input line. -/
lemma sectionContent_mem (lines : List (List Char)) (s : String) (l : List Char)
    (h : l ∈ sectionContent lines s) :
    l = placeholderLine s ∨ ∃ l0 ∈ lines, l = fmtLine l0 := by
  unfold sectionContent at h
  split at h
  · simp at h; exact Or.inl h
  · exact Or.inr (sectionScan_mem lines _ false l h)

/-! ### Splitting, joining and stripping lemmas -/

lemma splitlinesAux_nil (acc : List Char) :
    splitlinesAux [] acc = if acc.isEmpty then [] else [acc.reverse] := by
  rw [splitlinesAux]

lemma splitlinesAux_crlf (rest2 acc : List Char) :
    splitlinesAux ('\r' :: '\n' :: rest2) acc =
      acc.reverse :: splitlinesAux rest2 [] :=
  splitlinesAux.eq_2 acc rest2

lemma splitlinesAux_cr_other (rest acc : List Char)
    (h : ∀ rest2, rest ≠ '\n' :: rest2) :
    splitlinesAux ('\r' :: rest) acc = acc.reverse :: splitlinesAux rest [] := by
  rw [splitlinesAux.eq_3 acc '\r' rest (fun r2 _ he => h r2 he),
    if_pos (by decide : pyIsLineBreak '\r' = true)]

lemma splitlinesAux_cons_of_ne_cr (c : Char) (rest acc : List Char) (hc : c ≠ '\r') :
    splitlinesAux (c :: rest) acc =
      if pyIsLineBreak c then acc.reverse :: splitlinesAux rest []
      else splitlinesAux rest (c :: acc) := by
  rw [splitlinesAux.eq_3 acc c rest (fun r2 hc2 _ => hc hc2)]

lemma splitlinesAux_break (c : Char) (rest acc : List Char) (hc : c ≠ '\r')
    (hb : pyIsLineBreak c = true) :
    splitlinesAux (c :: rest) acc = acc.reverse :: splitlinesAux rest [] := by
  rw [splitlinesAux_cons_of_ne_cr c rest acc hc]
  simp [hb]

lemma splitlinesAux_nobreakc (c : Char) (rest acc : List Char)
    (hb : pyIsLineBreak c = false) :
    splitlinesAux (c :: rest) acc = splitlinesAux rest (c :: acc) := by
  have hc : c ≠ '\r' := by
    rintro rfl
    exact absurd hb (by decide)
  rw [splitlinesAux_cons_of_ne_cr c rest acc hc]
  simp [hb]

lemma splitlinesAux_append (l : List Char) (h : ∀ c ∈ l, pyIsLineBreak c = false) :
    ∀ (cs acc : List Char),
      splitlinesAux (l ++ cs) acc = splitlinesAux cs (l.reverse ++ acc) := by
  induction l with
  | nil => intro cs acc; simp
  | cons c l ih =>
    intro cs acc
    rw [List.cons_append, splitlinesAux_nobreakc c _ _ (h c (List.mem_cons_self ..)),
      ih (fun d hd => h d (List.mem_cons_of_mem _ hd)) cs (c :: acc)]
    congr 1
    simp

lemma joinNL_cons_cons (l l2 : List Char) (ls : List (List Char)) :
    joinNL (l :: l2 :: ls) = l ++ '\n' :: joinNL (l2 :: ls) := rfl

lemma joinNL_ne_nil (l : List Char) (ls : List (List Char)) (h : l ≠ []) :
    joinNL (l :: ls) ≠ [] := by
  cases ls with
  | nil => simpa [joinNL] using h
  | cons l2 ls2 => rw [joinNL_cons_cons]; simp

/-- Splitting the newline-join of non-empty break-free lines recovers the
lines. -/
lemma pySplitlines_joinNL : ∀ (L : List (List Char)),
    (∀ l ∈ L, l ≠ [] ∧ ∀ c ∈ l, pyIsLineBreak c = false) →
    pySplitlines (joinNL L) = L := by
  intro L
  induction L with
  | nil =>
    intro _
    show splitlinesAux [] [] = []
    rw [splitlinesAux_nil]
    rfl
  | cons l rest ih =>
    intro h
    obtain ⟨hne, hnb⟩ := h l (List.mem_cons_self ..)
    cases rest with
    | nil =>
      show splitlinesAux (joinNL [l]) [] = [l]
      have h1 : joinNL [l] = l ++ [] := by simp [joinNL]
      rw [h1, splitlinesAux_append l hnb [] [], splitlinesAux_nil]
      simp [hne]
    | cons l2 rest2 =>
      show splitlinesAux (joinNL (l :: l2 :: rest2)) [] = l :: l2 :: rest2
      rw [joinNL_cons_cons, splitlinesAux_append l hnb _ [],
        splitlinesAux_break '\n' _ _ (by decide) (by decide)]
      have h2 := ih (fun x hx => h x (List.mem_cons_of_mem _ hx))
      rw [show pySplitlines (joinNL (l2 :: rest2)) =
        splitlinesAux (joinNL (l2 :: rest2)) [] from rfl] at h2
      rw [h2]
      simp

lemma splitlinesAux_nil_mem {acc l : List Char}
    (hacc : ∀ c ∈ acc, pyIsLineBreak c = false)
    (hl : l ∈ splitlinesAux [] acc) : ∀ c ∈ l, pyIsLineBreak c = false := by
  rw [splitlinesAux_nil] at hl
  split at hl
  · simp at hl
  · simp only [List.mem_singleton] at hl
    subst hl
    exact fun c hc => hacc c (List.mem_reverse.mp hc)

/-- Every line produced by the splitter is free of line-break characters. -/
lemma splitlinesAux_mem_nobreak :
    ∀ (n : Nat) (cs acc : List Char), cs.length ≤ n →
      (∀ c ∈ acc, pyIsLineBreak c = false) →
      ∀ l ∈ splitlinesAux cs acc, ∀ c ∈ l, pyIsLineBreak c = false := by
  intro n
  induction n with
  | zero =>
    intro cs acc hlen hacc l hl
    have hcs : cs = [] := List.length_eq_zero.mp (Nat.le_zero.mp hlen)
    subst hcs
    exact splitlinesAux_nil_mem hacc hl
  | succ n ih =>
    intro cs acc hlen hacc l hl
    cases cs with
    | nil => exact splitlinesAux_nil_mem hacc hl
    | cons c0 rest =>
      simp only [List.length_cons] at hlen
      by_cases hc0 : c0 = '\r'
      · subst hc0
        cases rest with
        | nil =>
          rw [splitlinesAux_cr_other [] acc (by intro r2 he; cases he)] at hl
          rcases List.mem_cons.mp hl with rfl | h2
          · exact fun c hc => hacc c (List.mem_reverse.mp hc)
          · exact splitlinesAux_nil_mem (by simp) h2
        | cons d rest2 =>
          by_cases hd : d = '\n'
          · subst hd
            rw [splitlinesAux_crlf] at hl
            rcases List.mem_cons.mp hl with rfl | h2
            · exact fun c hc => hacc c (List.mem_reverse.mp hc)
            · simp only [List.length_cons] at hlen
              exact ih rest2 [] (by omega) (by simp) l h2
          · rw [splitlinesAux_cr_other (d :: rest2) acc
              (by intro r2 he; injection he with h1 _; exact hd h1)] at hl
            rcases List.mem_cons.mp hl with rfl | h2
            · exact fun c hc => hacc c (List.mem_reverse.mp hc)
            · exact ih (d :: rest2) [] (by omega) (by simp) l h2
      · rw [splitlinesAux_cons_of_ne_cr _ _ _ hc0] at hl
        split at hl
        · next hb =>
          rcases List.mem_cons.mp hl with rfl | h2
          · exact fun c hc => hacc c (List.mem_reverse.mp hc)
          · exact ih rest [] (by omega) (by simp) l h2
        · next hb =>
          refine ih rest (c0 :: acc) (by omega) ?_ l hl
          intro c hc
          rcases List.mem_cons.mp hc with rfl | hc2
          · simpa using hb
          · exact hacc c hc2

lemma pySplitlines_nobreak (cs : List Char) :
    ∀ l ∈ pySplitlines cs, ∀ c ∈ l, pyIsLineBreak c = false :=
  splitlinesAux_mem_nobreak cs.length cs [] (Nat.le_refl _) (by simp)

lemma dropWhile_head_false (p : Char → Bool) :
    ∀ (l : List Char) (c : Char), (l.dropWhile p).head? = some c → p c = false := by
  intro l
  induction l with
  | nil => intro c h; simp at h
  | cons a as ih =>
    intro c h
    rw [List.dropWhile_cons] at h
    split at h
    · exact ih c h
    · next hp =>
      simp only [List.head?_cons, Option.some.injEq] at h
      subst h
      simpa using hp

lemma dropWhile_eq_self_of_head (p : Char → Bool) (l : List Char)
    (h : ∀ c, l.head? = some c → p c = false) : l.dropWhile p = l := by
  cases l with
  | nil => rfl
  | cons a as =>
    rw [List.dropWhile_cons]
    simp [h a rfl]

lemma getLast?_dropWhile (p : Char → Bool) :
    ∀ (l : List Char), l.dropWhile p ≠ [] →
      (l.dropWhile p).getLast? = l.getLast? := by
  intro l
  induction l with
  | nil => intro h; simp at h
  | cons a as ih =>
    intro h
    rw [List.dropWhile_cons] at h ⊢
    by_cases hp : p a = true
    · rw [if_pos hp] at h ⊢
      rw [ih h]
      have has : as ≠ [] := by rintro rfl; simp at h
      cases as with
      | nil => cases has rfl
      | cons b bs => rw [List.getLast?_cons_cons]
    · rw [if_neg hp]

lemma mem_pyStrip {l : List Char} {c : Char} (h : c ∈ pyStrip l) : c ∈ l := by
  unfold pyStrip at h
  have h1 := List.mem_reverse.mp h
  have h2 := (List.dropWhile_sublist _).subset h1
  have h3 := List.mem_reverse.mp h2
  exact (List.dropWhile_sublist _).subset h3

lemma pyStrip_head (l : List Char) :
    ∀ c, (pyStrip l).head? = some c → pyIsSpace c = false := by
  intro c h
  unfold pyStrip at h
  rw [List.head?_reverse] at h
  have hX : (l.dropWhile pyIsSpace).reverse.dropWhile pyIsSpace ≠ [] := by
    intro he
    rw [he] at h
    simp at h
  rw [getLast?_dropWhile _ _ hX, List.getLast?_reverse] at h
  exact dropWhile_head_false _ l c h

lemma pyStrip_last (l : List Char) :
    ∀ c, (pyStrip l).getLast? = some c → pyIsSpace c = false := by
  intro c h
  unfold pyStrip at h
  rw [List.getLast?_reverse] at h
  exact dropWhile_head_false _ _ c h

lemma cleanLine_spec {l : List Char} (h : cleanLine l = true) :
    l ≠ [] ∧ (∀ c, l.head? = some c → pyIsSpace c = false) ∧
    (∀ c, l.getLast? = some c → pyIsSpace c = false) ∧
    ∀ c ∈ l, pyIsLineBreak c = false := by
  unfold cleanLine at h
  obtain ⟨h123, h4⟩ := Bool.and_eq_true_iff.mp h
  obtain ⟨h12, h3⟩ := Bool.and_eq_true_iff.mp h123
  obtain ⟨h1, h2⟩ := Bool.and_eq_true_iff.mp h12
  refine ⟨?_, ?_, ?_, ?_⟩
  · intro he; subst he; simp at h1
  · intro c hc; rw [hc] at h2; simpa using h2
  · intro c hc; rw [hc] at h3; simpa using h3
  · intro c hc
    have := List.all_eq_true.mp h4 c hc
    simpa using this

lemma cleanLine_intro {l : List Char} (hne : l ≠ [])
    (hh : ∀ c, l.head? = some c → pyIsSpace c = false)
    (hl : ∀ c, l.getLast? = some c → pyIsSpace c = false)
    (hb : ∀ c ∈ l, pyIsLineBreak c = false) : cleanLine l = true := by
  unfold cleanLine
  refine Bool.and_eq_true_iff.mpr
    ⟨Bool.and_eq_true_iff.mpr ⟨Bool.and_eq_true_iff.mpr ⟨?_, ?_⟩, ?_⟩, ?_⟩
  · simpa using hne
  · cases hc : l.head? with
    | none => cases l with | nil => cases hne rfl | cons a as => simp at hc
    | some c => simp [hh c hc]
  · cases hc : l.getLast? with
    | none =>
      cases l with
      | nil => cases hne rfl
      | cons a as => rw [List.getLast?_eq_none_iff] at hc; cases hc
    | some c => simp [hl c hc]
  · rw [List.all_eq_true]
    intro c hc
    simp [hb c hc]

lemma pyStrip_eq_self {l : List Char} (h : cleanLine l = true) : pyStrip l = l := by
  obtain ⟨hne, hhead, hlast, -⟩ := cleanLine_spec h
  unfold pyStrip
  rw [dropWhile_eq_self_of_head _ l hhead, dropWhile_eq_self_of_head]
  · exact List.reverse_reverse l
  · intro c hc
    rw [List.head?_reverse] at hc
    exact hlast c hc

/-- Every normalised line is clean: non-empty, stripped, break-free. -/
lemma normalizeLines_clean (cs : List Char) :
    ∀ l ∈ normalizeLines cs, cleanLine l = true := by
  intro l hl
  unfold normalizeLines at hl
  rw [List.mem_filter] at hl
  obtain ⟨hmem, hne⟩ := hl
  rw [List.mem_map] at hmem
  obtain ⟨l0, hl0, rfl⟩ := hmem
  have hnb0 := pySplitlines_nobreak cs l0 hl0
  refine cleanLine_intro ?_ (pyStrip_head l0) (pyStrip_last l0) ?_
  · simpa using hne
  · intro c hc
    exact hnb0 c (mem_pyStrip hc)

lemma cleanLine_cons_cons {l : List Char} (h : cleanLine l = true) :
    cleanLine ('-' :: ' ' :: l) = true := by
  obtain ⟨hne, -, hlast, hnb⟩ := cleanLine_spec h
  refine cleanLine_intro (by simp) ?_ ?_ ?_
  · intro c hc
    simp only [List.head?_cons, Option.some.injEq] at hc
    subst hc
    decide
  · intro c hc
    cases l with
    | nil => cases hne rfl
    | cons a as =>
      rw [List.getLast?_cons_cons, List.getLast?_cons_cons] at hc
      exact hlast c hc
  · intro c hc
    simp only [List.mem_cons] at hc
    rcases hc with rfl | rfl | hc
    · decide
    · decide
    · exact hnb c hc

lemma cleanLine_titleFmt {l : List Char} (h : cleanLine l = true) :
    cleanLine (titleFmt l) = true := by
  unfold titleFmt
  split
  · exact h
  · exact cleanLine_cons_cons h

lemma cleanLine_fmtLine {l : List Char} (h : cleanLine l = true) :
    cleanLine (fmtLine l) = true := by
  unfold fmtLine
  split
  · exact h
  · exact cleanLine_cons_cons h

lemma sectionBlocksOf_mem (lines : List (List Char)) (l : List Char)
    (h : l ∈ sectionBlocksOf lines) :
    ∃ s ∈ required_sections, l = headerLine s ∨ l ∈ sectionContent lines s := by
  unfold sectionBlocksOf at h
  rw [List.mem_flatten] at h
  obtain ⟨b, hb, hlb⟩ := h
  rw [List.mem_map] at hb
  obtain ⟨s, hs, rfl⟩ := hb
  unfold sectionBlock at hlb
  rcases List.mem_cons.mp hlb with rfl | h2
  · exact ⟨s, hs, Or.inl rfl⟩
  · exact ⟨s, hs, Or.inr h2⟩

lemma placeholderLine_clean : ∀ s ∈ required_sections,
    cleanLine (placeholderLine s) = true := by decide

lemma headerLine_clean : ∀ s ∈ required_sections,
    cleanLine (headerLine s) = true := by decide

/-- Every line of the strict algorithm's output is clean. -/
lemma outputLines_clean (r : String) : ∀ l ∈ outputLines r, cleanLine l = true := by
  intro l hl
  unfold outputLines structuredLines at hl
  rcases List.mem_cons.mp hl with rfl | hl2
  · decide
  · rw [List.mem_append] at hl2
    rcases hl2 with hl2 | hl2
    · split at hl2
      · simp only [List.mem_singleton] at hl2
        subst hl2
        decide
      · obtain ⟨l0, hl0, rfl⟩ := titleLinesOf_mem _ l hl2
        exact cleanLine_titleFmt (normalizeLines_clean _ l0 hl0)
    · obtain ⟨s, hs, h2⟩ := sectionBlocksOf_mem _ l hl2
      rcases h2 with rfl | h2
      · exact headerLine_clean s hs
      · rcases sectionContent_mem _ s l h2 with rfl | ⟨l0, hl0, rfl⟩
        · exact placeholderLine_clean s hs
        · exact cleanLine_fmtLine (normalizeLines_clean _ l0 hl0)

/-! ### Exactly-once header structure (C1) -/

lemma specialLine_marker : specialLine titleMarkerChars = true := by decide

lemma specialLine_header : ∀ s ∈ required_sections,
    specialLine (headerLine s) = true := by decide

lemma bulletish_not_special {l : List Char} (h : bulletish l = true) :
    specialLine l = false := by
  cases hs : specialLine l
  · rfl
  · exfalso
    have h2 : l = titleMarkerChars ∨ l ∈ allHeaders := of_decide_eq_true hs
    have hA : allHeaders =
        [headerLine "Goals / Objectives", headerLine "Key Features or Deliverables",
         headerLine "Tasks and Steps", headerLine "Estimated Timeline / Deadlines",
         headerLine "Resources / Tools Needed", headerLine "Potential Risks / Challenges",
         headerLine "Next Actions"] := rfl
    rw [hA] at h2
    simp only [List.mem_cons, List.not_mem_nil, or_false] at h2
    rcases h2 with rfl | rfl | rfl | rfl | rfl | rfl | rfl | rfl <;>
      exact absurd h (by decide)

lemma filter_special_nil_of_bulletish {xs : List (List Char)}
    (h : ∀ l ∈ xs, bulletish l = true) : xs.filter specialLine = [] :=
  List.filter_eq_nil_iff.mpr (fun l hl => by simp [bulletish_not_special (h l hl)])

lemma sectionContent_bulletish (lines : List (List Char)) (s : String) :
    ∀ l ∈ sectionContent lines s, bulletish l = true := by
  intro l hl
  rcases sectionContent_mem lines s l hl with rfl | ⟨l0, -, rfl⟩
  · simp [placeholderLine, bulletish]
  · exact keepLine_bulletish (keepLine_fmtLine l0)

lemma sectionBlocks_filter (lines : List (List Char)) :
    ∀ ss : List String, (∀ s ∈ ss, specialLine (headerLine s) = true) →
      ((ss.map (sectionBlock lines)).flatten).filter specialLine = ss.map headerLine := by
  intro ss
  induction ss with
  | nil => intro _; rfl
  | cons s rest ih =>
    intro hs
    simp only [List.map_cons, List.flatten_cons, List.filter_append]
    rw [ih (fun t ht => hs t (List.mem_cons_of_mem _ ht))]
    simp only [sectionBlock, List.filter_cons, hs s (List.mem_cons_self ..)]
    rw [filter_special_nil_of_bulletish (sectionContent_bulletish lines s)]
    simp

lemma titlePart_bulletish (lines : List (List Char)) :
    ∀ l ∈ (if titleLinesOf lines = [] then [defaultTitleBullet]
           else titleLinesOf lines), bulletish l = true := by
  intro l hl
  split at hl
  · simp only [List.mem_singleton] at hl
    subst hl
    decide
  · obtain ⟨l0, -, rfl⟩ := titleLinesOf_mem _ l hl
    exact bulletHead_bulletish (bulletHead_titleFmt l0)

/-- The lines of the strict output filtered down to the structural markers
are exactly the title marker followed by the seven headers in order. -/
lemma outputLines_filter (r : String) :
    (outputLines r).filter specialLine = titleMarkerChars :: allHeaders := by
  unfold outputLines structuredLines sectionBlocksOf
  rw [List.filter_cons, List.filter_append,
    filter_special_nil_of_bulletish (titlePart_bulletish _),
    sectionBlocks_filter _ required_sections specialLine_header]
  simp [specialLine_marker, allHeaders]

/-- C1: for every model response `r`, the lines of the strict rebuilder's
output contain the title marker line exactly once, followed by the seven
required section header lines, each exactly once, in the fixed configured
order. -/
theorem strict_output_headers_exactly_once (r : String) :
    (pySplitlines (text_to_project_notes r).data).filter specialLine =
      titleMarkerChars :: allHeaders := by
  have h1 : ∀ l ∈ outputLines r, l ≠ [] ∧ ∀ c ∈ l, pyIsLineBreak c = false := by
    intro l hl
    obtain ⟨hne, -, -, hnb⟩ := cleanLine_spec (outputLines_clean r l hl)
    exact ⟨hne, hnb⟩
  have hdata : (text_to_project_notes r).data = joinNL (outputLines r) := rfl
  rw [hdata, pySplitlines_joinNL _ h1, outputLines_filter r]

/-! ### Joining uses single newlines, not blank lines (C2) -/

/-- C2 counterexample: the strict algorithm's output for the empty response
contains every required header but no blank line at all (no two consecutive
newline characters), so no section header is preceded by an empty line. -/
theorem blank_line_separation_refuted :
    findSuffixFrom ['\n', '\n'] (text_to_project_notes "").data = none ∧
    (allHeaders.all
      (fun h => (findSuffixFrom h (text_to_project_notes "").data).isSome)) = true := by
  decide

/-- C2 amended: the strict algorithm joins the title block and the section
blocks with single newlines and no blank-line separation; on the empty model
response it produces exactly this document. -/
theorem strict_newline_join_on_empty_response :
    text_to_project_notes "" =
      "# Project Title\n- Project enhancement\n## Goals / Objectives\n- Define the main purpose and goals.\n## Key Features or Deliverables\n- List expected outputs or features.\n## Tasks and Steps\n- Break down the work into steps.\n## Estimated Timeline / Deadlines\n- Set realistic deadlines.\n## Resources / Tools Needed\n- Identify required tools or access.\n## Potential Risks / Challenges\n- Note possible obstacles.\n## Next Actions\n- List immediate next steps." := by
  decide

/-! ### Behaviour of the section scan on duplicate headers (C3) -/

lemma sectionScan_header (h : List Char) (rest : List (List Char)) (b : Bool) :
    sectionScan h (h :: rest) b = sectionScan h rest true := by
  simp [sectionScan]

lemma sectionScan_skip_false {h l : List Char} (rest : List (List Char))
    (hne : l ≠ h) : sectionScan h (l :: rest) false = sectionScan h rest false := by
  simp [sectionScan, hne]

lemma sectionScan_stop {h l : List Char} (rest : List (List Char)) (hne : l ≠ h)
    (hp : "## ".data.isPrefixOf l = true) : sectionScan h (l :: rest) true = [] := by
  simp [sectionScan, hne, hp]

lemma sectionScan_collect {h l : List Char} (rest : List (List Char)) (hne : l ≠ h)
    (hp : "## ".data.isPrefixOf l = false) :
    sectionScan h (l :: rest) true = fmtLine l :: sectionScan h rest true := by
  simp [sectionScan, hne, hp]

/-- Lines different from the header are ignored while no section is open. -/
lemma sectionScan_skip_all (h : List Char) (pre : List (List Char))
    (rest : List (List Char)) (hpre : ∀ l ∈ pre, l ≠ h) :
    sectionScan h (pre ++ rest) false = sectionScan h rest false := by
  induction pre with
  | nil => rfl
  | cons a pre ih =>
    rw [List.cons_append, sectionScan_skip_false _ (hpre a (List.mem_cons_self ..)),
      ih (fun l hl => hpre l (List.mem_cons_of_mem _ hl))]

/-- While a section is open, non-header non-`"## "` lines are collected
after formatting. -/
lemma sectionScan_collect_all (h : List Char) (mid : List (List Char))
    (rest : List (List Char))
    (hmid : ∀ l ∈ mid, l ≠ h ∧ "## ".data.isPrefixOf l = false) :
    sectionScan h (mid ++ rest) true = mid.map fmtLine ++ sectionScan h rest true := by
  induction mid with
  | nil => rfl
  | cons a mid ih =>
    obtain ⟨hne, hp⟩ := hmid a (List.mem_cons_self ..)
    rw [List.cons_append, sectionScan_collect _ hne hp,
      ih (fun l hl => hmid l (List.mem_cons_of_mem _ hl))]
    rfl

/-- C3 counterexample: when the Goals header occurs twice in the response,
the duplicate header line appears nowhere in the output — not verbatim a
second time and not promoted to a content bullet of the open section — while
the content following the duplicate is merged into the single rebuilt Goals
section. -/
theorem duplicate_header_not_content_refuted :
    (outputLines "## Goals / Objectives\nalpha\n## Goals / Objectives\nbeta").count
        (headerLine "Goals / Objectives") = 1 ∧
    ('-' :: ' ' :: headerLine "Goals / Objectives") ∉
      outputLines "## Goals / Objectives\nalpha\n## Goals / Objectives\nbeta" ∧
    "- alpha".data ∈
      outputLines "## Goals / Objectives\nalpha\n## Goals / Objectives\nbeta" ∧
    "- beta".data ∈
      outputLines "## Goals / Objectives\nalpha\n## Goals / Objectives\nbeta" := by
  decide

/-- C3 amended: the first occurrence of a section's header activates
collection; every later line exactly equal to that header is skipped
entirely (it is not emitted as content), and the lines following it continue
to be collected, so the contents of the duplicate occurrences are merged;
header lines of other sections still terminate the scan. -/
theorem duplicate_header_skipped_and_merged (h : List Char)
    (a b post : List (List Char))
    (ha : ∀ l ∈ a, l ≠ h ∧ "## ".data.isPrefixOf l = false)
    (hb : ∀ l ∈ b, l ≠ h ∧ "## ".data.isPrefixOf l = false) :
    sectionScan h (h :: (a ++ h :: (b ++ post))) false =
      a.map fmtLine ++ (b.map fmtLine ++ sectionScan h post true) := by
  rw [sectionScan_header, sectionScan_collect_all h a _ ha, sectionScan_header,
    sectionScan_collect_all h b _ hb]

/-- C3 amended, witnessed at a concrete duplicated Goals section. -/
theorem duplicate_header_skipped_and_merged_witness :
    sectionScan (headerLine "Goals / Objectives")
        (headerLine "Goals / Objectives" :: (["alpha".data] ++
          headerLine "Goals / Objectives" :: (["beta".data] ++ []))) false =
      ["alpha".data].map fmtLine ++ (["beta".data].map fmtLine ++
        sectionScan (headerLine "Goals / Objectives") [] true) :=
  duplicate_header_skipped_and_merged (headerLine "Goals / Objectives")
    ["alpha".data] ["beta".data] [] (by decide) (by decide)

/-! ### Title block construction (C8) -/

/-- The title-block loop expressed through `takeWhile`, `filter` and `map`:
stop at the first `"## "` line, drop every `"# "` line, format the rest. -/
lemma titleLinesOf_eq (ls : List (List Char)) :
    titleLinesOf ls =
      ((ls.takeWhile (fun l => !("## ".data.isPrefixOf l))).filter
        (fun l => !("# ".data.isPrefixOf l))).map titleFmt := by
  induction ls with
  | nil => rfl
  | cons a rest ih =>
    simp only [titleLinesOf]
    split
    · next h1 =>
      have h2 : "## ".data.isPrefixOf a = false := by
        obtain ⟨t, rfl⟩ := isPrefixOf_two (l := a) h1
        simp [List.isPrefixOf]
      rw [List.takeWhile_cons, if_pos (by simp [h2]), List.filter_cons,
        if_neg (by simp [h1])]
      exact ih
    · split
      · next h2 =>
        rw [List.takeWhile_cons, if_neg (by simp [h2])]
        rfl
      · next h1 h2 =>
        rw [List.takeWhile_cons,
          if_pos (by simp [Bool.eq_false_iff.mpr h2]), List.filter_cons,
          if_pos (by simp [Bool.eq_false_iff.mpr h1])]
        simp only [List.map_cons]
        rw [ih]

/-- The rebuilt document always starts with the title marker followed by a
bullet-headed title line. -/
lemma structuredLines_shape (ai : List Char) :
    ∃ t rest, structuredLines ai = titleMarkerChars :: t :: rest ∧
      bulletHead t = true := by
  unfold structuredLines
  split
  · exact ⟨defaultTitleBullet, _, rfl, by decide⟩
  · next hne =>
    cases hT : titleLinesOf (normalizeLines (anchorTitle ai)) with
    | nil => exact absurd hT hne
    | cons t ts =>
      refine ⟨t, ts ++ sectionBlocksOf (normalizeLines (anchorTitle ai)), rfl, ?_⟩
      obtain ⟨l0, -, rfl⟩ := titleLinesOf_mem _ t (hT ▸ List.mem_cons_self ..)
      exact bulletHead_titleFmt l0

lemma outputLines_second (r : String) :
    2 ≤ (outputLines r).length ∧
      bulletHead ((outputLines r).getD 1 []) = true := by
  obtain ⟨t, rest, heq, hbh⟩ := structuredLines_shape (pyStrip r.data)
  have h2 : outputLines r = titleMarkerChars :: t :: rest := heq
  rw [h2]
  refine ⟨by simp, ?_⟩
  simpa using hbh

/-- C8 counterexample: a level-1 header line before the first section header
is dropped from the title block, not promoted to a bullet: for
`"# Intro\nhello"` neither `"- # Intro"` nor `"# Intro"` occurs in the
output, while the non-header line is promoted. -/
theorem title_h1_promotion_refuted :
    "- # Intro".data ∉ outputLines "# Intro\nhello" ∧
    "# Intro".data ∉ outputLines "# Intro\nhello" ∧
    "- hello".data ∈ outputLines "# Intro\nhello" := by
  decide

/-- C8 amended: before the first `"## "` line, every line starting with
`"# "` (the title marker and any other level-1 header) is dropped; of the
remaining lines those starting with `-` or `*` are kept verbatim and all
others are promoted by prefixing `"- "`; the title block is never omitted —
the output always has a second line and it starts with a bullet marker, the
default bullet being synthesised when no title lines remain. -/
theorem title_block_skip_keep_promote (ls : List (List Char)) (r : String) :
    titleLinesOf ls =
      ((ls.takeWhile (fun l => !("## ".data.isPrefixOf l))).filter
        (fun l => !("# ".data.isPrefixOf l))).map titleFmt ∧
    2 ≤ (outputLines r).length ∧
    bulletHead ((outputLines r).getD 1 []) = true ∧
    (outputLines "## Goals / Objectives\nx").getD 1 [] = defaultTitleBullet :=
  ⟨titleLinesOf_eq ls, (outputLines_second r).1, (outputLines_second r).2,
    by decide⟩

/-! ### Idempotence of the strict algorithm (C7): auxiliary lemmas -/

lemma isPrefixOf_cons_decomp {a : Char} {as l : List Char}
    (h : (a :: as).isPrefixOf l = true) :
    ∃ t, l = a :: t ∧ as.isPrefixOf t = true := by
  cases l with
  | nil => simp [List.isPrefixOf] at h
  | cons c cs =>
    simp only [List.isPrefixOf, Bool.and_eq_true, beq_iff_eq] at h
    exact ⟨cs, by rw [h.1], h.2⟩

lemma isPrefixOf_append_self : ∀ (a b : List Char), a.isPrefixOf (a ++ b) = true := by
  intro a b
  induction a with
  | nil => simp [List.isPrefixOf]
  | cons c a ih => simp [List.isPrefixOf, ih]

lemma hdr_not_h1 {hline : List Char} (hh : "## ".data.isPrefixOf hline = true) :
    "# ".data.isPrefixOf hline = false := by
  have hd : "## ".data = ['#', '#', ' '] := rfl
  rw [hd] at hh
  obtain ⟨t1, rfl, h2⟩ := isPrefixOf_cons_decomp hh
  obtain ⟨t2, rfl, -⟩ := isPrefixOf_cons_decomp h2
  simp [List.isPrefixOf]

lemma bulletHead_shape {l : List Char} (h : bulletHead l = true) :
    ∃ c t, l = c :: t ∧ (c = '-' ∨ c = '*') := by
  cases l with
  | nil => simp [bulletHead] at h
  | cons c cs =>
    simp only [bulletHead, Bool.or_eq_true, beq_iff_eq] at h
    exact ⟨c, cs, rfl, h⟩

lemma bulletHead_not_h1 {l : List Char} (h : bulletHead l = true) :
    "# ".data.isPrefixOf l = false := by
  obtain ⟨c, t, rfl, hc⟩ := bulletHead_shape h
  rcases hc with rfl | rfl <;> simp [List.isPrefixOf]

lemma bulletHead_not_h2 {l : List Char} (h : bulletHead l = true) :
    "## ".data.isPrefixOf l = false := by
  obtain ⟨c, t, rfl, hc⟩ := bulletHead_shape h
  rcases hc with rfl | rfl <;> simp [List.isPrefixOf]

lemma bulletish_shape {l : List Char} (h : bulletish l = true) :
    ∃ c t, l = c :: t ∧ ('#' == c) = false := by
  cases l with
  | nil => simp [bulletish] at h
  | cons c cs =>
    have hc : ('#' == c) = false := by
      cases heq : ('#' == c)
      · rfl
      · exfalso
        have h2 : c = '#' := (eq_of_beq heq).symm
        subst h2
        have h3 : bulletish ('#' :: cs) = false := rfl
        rw [h3] at h
        cases h
    exact ⟨c, cs, rfl, hc⟩

lemma bulletish_not_h2 {l : List Char} (h : bulletish l = true) :
    "## ".data.isPrefixOf l = false := by
  obtain ⟨c, t, rfl, hc⟩ := bulletish_shape h
  have hd : "## ".data = ['#', '#', ' '] := rfl
  rw [hd]
  simp [List.isPrefixOf, hc]

lemma titleFmt_of_bulletHead {l : List Char} (h : bulletHead l = true) :
    titleFmt l = l := by
  obtain ⟨c, t, rfl, hc⟩ := bulletHead_shape h
  unfold titleFmt
  rcases hc with rfl | rfl <;> simp [List.isPrefixOf]

lemma fmtLine_of_keepLine {l : List Char} (h : keepLine l = true) :
    fmtLine l = l := by
  unfold fmtLine
  rw [if_pos h]

lemma sectionContent_keepLine (lines : List (List Char)) (s : String) :
    ∀ l ∈ sectionContent lines s, keepLine l = true := by
  intro l hl
  rcases sectionContent_mem lines s l hl with rfl | ⟨l0, -, rfl⟩
  · simp [placeholderLine, keepLine, List.isPrefixOf]
  · exact keepLine_fmtLine l0

lemma sectionContent_ne_nil (lines : List (List Char)) (s : String) :
    sectionContent lines s ≠ [] := by
  unfold sectionContent
  split
  · simp
  · assumption

lemma headerLine_pref (s : String) :
    "## ".data.isPrefixOf (headerLine s) = true := by
  have hd : headerLine s = "## ".data ++ s.data := rfl
  rw [hd]
  exact isPrefixOf_append_self _ _

lemma bulletish_ne_header {l : List Char} (h : bulletish l = true) :
    ∀ s ∈ required_sections, l ≠ headerLine s := by
  intro s hs heq
  have h1 : specialLine l = false := bulletish_not_special h
  have h2 : specialLine l = true := by
    rw [heq]
    exact specialLine_header s hs
  rw [h1] at h2
  cases h2

lemma marker_ne_header : ∀ s ∈ required_sections,
    titleMarkerChars ≠ headerLine s := by decide

lemma headerLine_inj_on_required : ∀ t ∈ required_sections,
    ∀ u ∈ required_sections, headerLine t = headerLine u → t = u := by decide

lemma required_sections_nodup : required_sections.Nodup := by decide

lemma cleanLine_ne_nil {l : List Char} (h : cleanLine l = true) : l ≠ [] :=
  (cleanLine_spec h).1

lemma joinNL_head? (l : List Char) (ls : List (List Char)) (h : l ≠ []) :
    (joinNL (l :: ls)).head? = l.head? := by
  cases ls with
  | nil => rfl
  | cons l2 ls2 =>
    rw [joinNL_cons_cons]
    cases l with
    | nil => cases h rfl
    | cons c cs => rfl

lemma joinNL_getLast_nospace : ∀ (L : List (List Char)),
    (∀ l ∈ L, cleanLine l = true) →
    ∀ c, (joinNL L).getLast? = some c → pyIsSpace c = false := by
  intro L
  induction L with
  | nil => intro _ c h; simp [joinNL] at h
  | cons l rest ih =>
    intro hcl c h
    cases rest with
    | nil => exact (cleanLine_spec (hcl l (List.mem_cons_self ..))).2.2.1 c h
    | cons l2 rest2 =>
      rw [joinNL_cons_cons, List.getLast?_append] at h
      have hne2 : joinNL (l2 :: rest2) ≠ [] :=
        joinNL_ne_nil l2 rest2 (cleanLine_ne_nil (hcl l2 (by simp)))
      have h3 : ('\n' :: joinNL (l2 :: rest2)).getLast? =
          (joinNL (l2 :: rest2)).getLast? := by
        cases hJ : joinNL (l2 :: rest2) with
        | nil => exact absurd hJ hne2
        | cons x xs => rw [List.getLast?_cons_cons]
      rw [h3] at h
      cases hJl : (joinNL (l2 :: rest2)).getLast? with
      | none => rw [List.getLast?_eq_none_iff] at hJl; exact absurd hJl hne2
      | some d =>
        rw [hJl] at h
        simp only [Option.or_some] at h
        injection h with h4
        exact h4 ▸ ih (fun x hx => hcl x (List.mem_cons_of_mem _ hx)) d hJl

lemma pyStrip_joinNL (L : List (List Char)) (hcl : ∀ l ∈ L, cleanLine l = true)
    (hhead : ∀ c, (joinNL L).head? = some c → pyIsSpace c = false) :
    pyStrip (joinNL L) = joinNL L := by
  unfold pyStrip
  rw [dropWhile_eq_self_of_head _ _ hhead, dropWhile_eq_self_of_head,
    List.reverse_reverse]
  intro c hc
  rw [List.head?_reverse] at hc
  exact joinNL_getLast_nospace L hcl c hc

lemma findSuffixFrom_of_isPrefixOf {needle l : List Char}
    (h : needle.isPrefixOf l = true) : findSuffixFrom needle l = some l := by
  cases l with
  | nil => simp [findSuffixFrom, h]
  | cons c cs => simp [findSuffixFrom, h]

lemma anchorTitle_marker_head (x : List Char) :
    anchorTitle (titleMarkerChars ++ x) = titleMarkerChars ++ x := by
  unfold anchorTitle
  rw [findSuffixFrom_of_isPrefixOf (isPrefixOf_append_self _ _)]

lemma normalizeLines_joinNL (L : List (List Char))
    (hcl : ∀ l ∈ L, cleanLine l = true) : normalizeLines (joinNL L) = L := by
  unfold normalizeLines
  rw [pySplitlines_joinNL L (fun l hl =>
    ⟨(cleanLine_spec (hcl l hl)).1, (cleanLine_spec (hcl l hl)).2.2.2⟩)]
  rw [List.map_congr_left (fun l hl => pyStrip_eq_self (hcl l hl)),
    show L.map (fun l => l) = L from List.map_id' L]
  rw [List.filter_eq_self.mpr]
  intro l hl
  simpa using (cleanLine_spec (hcl l hl)).1

/-- The title loop keeps a bullet-headed block verbatim and stops at the
first section header. -/
lemma titleLinesOf_append_hdr (T : List (List Char)) (hline : List Char)
    (z : List (List Char)) (hT : ∀ l ∈ T, bulletHead l = true)
    (hh : "## ".data.isPrefixOf hline = true) :
    titleLinesOf (T ++ hline :: z) = T := by
  induction T with
  | nil =>
    simp only [List.nil_append, titleLinesOf]
    rw [if_neg (by simp [hdr_not_h1 hh]), if_pos (by simp [hh])]
  | cons a T ih =>
    have hba := hT a (List.mem_cons_self ..)
    simp only [List.cons_append, titleLinesOf]
    rw [if_neg (by simp [bulletHead_not_h1 hba]),
      if_neg (by simp [bulletHead_not_h2 hba]),
      titleFmt_of_bulletHead hba]
    exact congrArg (a :: ·) (ih (fun l hl => hT l (List.mem_cons_of_mem _ hl)))

lemma sectionBlock_ne_header (lines0 : List (List Char)) (t : String)
    (ht : t ∈ required_sections) (s : String) (hs : s ∈ required_sections)
    (hts : t ≠ s) : ∀ l ∈ sectionBlock lines0 t, l ≠ headerLine s := by
  intro l hl
  rcases List.mem_cons.mp hl with rfl | h2
  · intro heq
    exact hts (headerLine_inj_on_required t ht s hs heq)
  · exact bulletish_ne_header (sectionContent_bulletish lines0 t l h2) s hs

/-- Scanning the rebuilt blocks for a section's header yields exactly that
section's rebuilt content. -/
lemma sectionScan_blocks_hit (lines0 : List (List Char)) (s : String)
    (hs : s ∈ required_sections) :
    ∀ (ss : List String), (∀ t ∈ ss, t ∈ required_sections) → ss.Nodup →
      s ∈ ss →
      sectionScan (headerLine s) ((ss.map (sectionBlock lines0)).flatten) false =
        sectionContent lines0 s := by
  intro ss
  induction ss with
  | nil => intro _ _ h; cases h
  | cons t rest ih =>
    intro hmem hnd hsm
    obtain ⟨hnotin, hnd2⟩ := List.nodup_cons.mp hnd
    by_cases hts : t = s
    · subst hts
      simp only [List.map_cons, List.flatten_cons]
      rw [show sectionBlock lines0 t ++ (rest.map (sectionBlock lines0)).flatten =
        headerLine t :: (sectionContent lines0 t ++
          (rest.map (sectionBlock lines0)).flatten) from rfl]
      rw [sectionScan_header]
      have hcond : ∀ l ∈ sectionContent lines0 t,
          l ≠ headerLine t ∧ "## ".data.isPrefixOf l = false := by
        intro l hl
        have hb := sectionContent_bulletish lines0 t l hl
        exact ⟨bulletish_ne_header hb t hs, bulletish_not_h2 hb⟩
      rw [sectionScan_collect_all _ _ _ hcond,
        List.map_congr_left (fun l hl =>
          fmtLine_of_keepLine (sectionContent_keepLine lines0 t l hl)),
        show (sectionContent lines0 t).map (fun l => l) = sectionContent lines0 t
          from List.map_id' _]
      have hrest : sectionScan (headerLine t)
          ((rest.map (sectionBlock lines0)).flatten) true = [] := by
        cases hr : rest with
        | nil => rfl
        | cons u rest2 =>
          simp only [List.map_cons, List.flatten_cons]
          rw [show sectionBlock lines0 u ++ (rest2.map (sectionBlock lines0)).flatten =
            headerLine u :: (sectionContent lines0 u ++
              (rest2.map (sectionBlock lines0)).flatten) from rfl]
          refine sectionScan_stop _ ?_ (headerLine_pref u)
          intro heq
          have hu : u ∈ required_sections := by
            refine hmem u ?_
            rw [hr]
            exact List.mem_cons_of_mem _ (List.mem_cons_self ..)
          have hut : u = t := headerLine_inj_on_required u hu t hs heq
          subst hut
          refine hnotin ?_
          rw [hr]
          exact List.mem_cons_self ..
      rw [hrest, List.append_nil]
    · simp only [List.map_cons, List.flatten_cons]
      rw [sectionScan_skip_all _ _ _
        (sectionBlock_ne_header lines0 t (hmem t (List.mem_cons_self ..)) s hs hts)]
      refine ih (fun u hu => hmem u (List.mem_cons_of_mem _ hu)) hnd2 ?_
      rcases List.mem_cons.mp hsm with heq | h2
      · exact absurd heq.symm hts
      · exact h2

/-- Scanning the full rebuilt document for a section's header recovers the
section's rebuilt content. -/
lemma sectionScan_structured (lines0 T : List (List Char))
    (hT : ∀ l ∈ T, bulletish l = true) (s : String) (hs : s ∈ required_sections) :
    sectionScan (headerLine s)
      (titleMarkerChars :: (T ++ sectionBlocksOf lines0)) false =
      sectionContent lines0 s := by
  rw [sectionScan_skip_false _ (marker_ne_header s hs),
    sectionScan_skip_all _ T _ (fun l hl => bulletish_ne_header (hT l hl) s hs)]
  exact sectionScan_blocks_hit lines0 s hs required_sections (fun t ht => ht)
    required_sections_nodup hs

lemma sectionContent_structured (lines0 T : List (List Char))
    (hT : ∀ l ∈ T, bulletish l = true) (s : String) (hs : s ∈ required_sections) :
    sectionContent (titleMarkerChars :: (T ++ sectionBlocksOf lines0)) s =
      sectionContent lines0 s := by
  have h1 := sectionScan_structured lines0 T hT s hs
  rw [show sectionContent (titleMarkerChars :: (T ++ sectionBlocksOf lines0)) s =
    (if sectionScan (headerLine s)
          (titleMarkerChars :: (T ++ sectionBlocksOf lines0)) false = []
     then [placeholderLine s]
     else sectionScan (headerLine s)
          (titleMarkerChars :: (T ++ sectionBlocksOf lines0)) false) from rfl,
    h1, if_neg (sectionContent_ne_nil lines0 s)]

lemma titleLinesOf_structured (lines0 T : List (List Char))
    (hT : ∀ l ∈ T, bulletHead l = true) :
    titleLinesOf (titleMarkerChars :: (T ++ sectionBlocksOf lines0)) = T := by
  rw [show titleLinesOf (titleMarkerChars :: (T ++ sectionBlocksOf lines0)) =
    titleLinesOf (T ++ sectionBlocksOf lines0) from by
      simp only [titleLinesOf]
      rw [if_pos (by decide)]]
  rw [show sectionBlocksOf lines0 = headerLine "Goals / Objectives" ::
    (sectionContent lines0 "Goals / Objectives" ++
      ((["Key Features or Deliverables", "Tasks and Steps",
         "Estimated Timeline / Deadlines", "Resources / Tools Needed",
         "Potential Risks / Challenges",
         "Next Actions"].map (sectionBlock lines0)).flatten)) from rfl]
  exact titleLinesOf_append_hdr T _ _ hT (headerLine_pref _)

/-- Rebuilding a canonical rebuilt document reproduces it unchanged. -/
lemma structuredLines_roundtrip (lines0 T : List (List Char))
    (hTbh : ∀ l ∈ T, bulletHead l = true) (hTne : T ≠ [])
    (hclean : ∀ l ∈ titleMarkerChars :: (T ++ sectionBlocksOf lines0),
      cleanLine l = true) :
    structuredLines
        (pyStrip (joinNL (titleMarkerChars :: (T ++ sectionBlocksOf lines0)))) =
      titleMarkerChars :: (T ++ sectionBlocksOf lines0) := by
  have hTbi : ∀ l ∈ T, bulletish l = true :=
    fun l hl => bulletHead_bulletish (hTbh l hl)
  have hstrip : pyStrip (joinNL (titleMarkerChars :: (T ++ sectionBlocksOf lines0)))
      = joinNL (titleMarkerChars :: (T ++ sectionBlocksOf lines0)) := by
    apply pyStrip_joinNL _ hclean
    intro c hc
    rw [joinNL_head? _ _ (by decide)] at hc
    have h5 : titleMarkerChars.head? = some '#' := rfl
    rw [h5] at hc
    injection hc with h6
    rw [← h6]
    decide
  rw [hstrip]
  have hanchor : anchorTitle (joinNL (titleMarkerChars :: (T ++ sectionBlocksOf lines0)))
      = joinNL (titleMarkerChars :: (T ++ sectionBlocksOf lines0)) := by
    cases hTB : T ++ sectionBlocksOf lines0 with
    | nil =>
      exfalso
      rcases List.append_eq_nil.mp hTB with ⟨h1, -⟩
      exact hTne h1
    | cons y ys =>
      rw [joinNL_cons_cons]
      exact anchorTitle_marker_head _
  have hnorm : normalizeLines (joinNL (titleMarkerChars :: (T ++ sectionBlocksOf lines0)))
      = titleMarkerChars :: (T ++ sectionBlocksOf lines0) :=
    normalizeLines_joinNL _ hclean
  rw [show structuredLines (joinNL (titleMarkerChars :: (T ++ sectionBlocksOf lines0))) =
    titleMarkerChars ::
      ((if titleLinesOf (normalizeLines (anchorTitle
            (joinNL (titleMarkerChars :: (T ++ sectionBlocksOf lines0))))) = []
        then [defaultTitleBullet]
        else titleLinesOf (normalizeLines (anchorTitle
            (joinNL (titleMarkerChars :: (T ++ sectionBlocksOf lines0)))))) ++
       sectionBlocksOf (normalizeLines (anchorTitle
            (joinNL (titleMarkerChars :: (T ++ sectionBlocksOf lines0))))))
    from rfl]
  rw [hanchor, hnorm, titleLinesOf_structured lines0 T hTbh, if_neg hTne]
  have hblocks : sectionBlocksOf (titleMarkerChars :: (T ++ sectionBlocksOf lines0))
      = sectionBlocksOf lines0 := by
    have hmap : required_sections.map
          (sectionBlock (titleMarkerChars :: (T ++ sectionBlocksOf lines0)))
        = required_sections.map (sectionBlock lines0) :=
      List.map_congr_left (fun s hs => by
        show headerLine s ::
            sectionContent (titleMarkerChars :: (T ++ sectionBlocksOf lines0)) s
          = headerLine s :: sectionContent lines0 s
        rw [sectionContent_structured lines0 T hTbi s hs])
    show (required_sections.map
        (sectionBlock (titleMarkerChars :: (T ++ sectionBlocksOf lines0)))).flatten
      = (required_sections.map (sectionBlock lines0)).flatten
    rw [hmap]
  rw [hblocks]

/-- C7: the strict algorithm is idempotent on its own output: feeding the
produced document back through the rebuilder returns it byte-identically. -/
theorem strict_algorithm_idempotent (r : String) :
    text_to_project_notes (text_to_project_notes r) = text_to_project_notes r := by
  have hTbh : ∀ l ∈ (if titleLinesOf (normalizeLines (anchorTitle (pyStrip r.data))) = []
      then [defaultTitleBullet]
      else titleLinesOf (normalizeLines (anchorTitle (pyStrip r.data)))),
      bulletHead l = true := by
    intro l hl
    split at hl
    · simp only [List.mem_singleton] at hl
      subst hl
      decide
    · obtain ⟨l0, -, rfl⟩ := titleLinesOf_mem _ l hl
      exact bulletHead_titleFmt l0
  have hTne : (if titleLinesOf (normalizeLines (anchorTitle (pyStrip r.data))) = []
      then [defaultTitleBullet]
      else titleLinesOf (normalizeLines (anchorTitle (pyStrip r.data)))) ≠ [] := by
    split
    · simp
    · next hne => exact hne
  have hkey := structuredLines_roundtrip (normalizeLines (anchorTitle (pyStrip r.data)))
    _ hTbh hTne (outputLines_clean r)
  show String.mk (joinNL (outputLines (text_to_project_notes r))) =
    String.mk (joinNL (outputLines r))
  refine congrArg (fun l => String.mk (joinNL l)) ?_
  show structuredLines (pyStrip (text_to_project_notes r).data) = outputLines r
  exact hkey

/-! ### Totality of the strict pipeline (C4)

The same pipeline with Python's two partial operations made explicit:
`line[0]` raises `IndexError` on an empty line (app.py 182) and
`placeholder_text[section]` raises `KeyError` on a missing key (app.py 189).
Every other step is a total string operation. -/

/-- Content-line formatting with the `line[0]` indexing made fallible. -/
def fmtLineE (l : List Char) : Except String (List Char) :=
  if "- ".data.isPrefixOf l || "* ".data.isPrefixOf l then Except.ok l
  else
    match l with
    | [] => Except.error "IndexError: string index out of range"
    | c :: _ => if c.isDigit then Except.ok l else Except.ok ('-' :: ' ' :: l)

/-- The section scan with fallible line formatting. -/
def sectionScanE (header : List Char) :
    List (List Char) → Bool → Except String (List (List Char))
  | [], _ => Except.ok []
  | l :: rest, inSection =>
    if l = header then sectionScanE header rest true
    else if inSection && "## ".data.isPrefixOf l then Except.ok []
    else if inSection then do
      let f ← fmtLineE l
      let tail ← sectionScanE header rest inSection
      Except.ok (f :: tail)
    else sectionScanE header rest inSection

/-- Section content with the fallible dictionary lookup of the
placeholder. -/
def sectionContentE (lines : List (List Char)) (s : String) :
    Except String (List (List Char)) := do
  let c ← sectionScanE (headerLine s) lines false
  if c = [] then
    match List.lookup s placeholder_text with
    | some t => Except.ok ['-' :: ' ' :: t.data]
    | none => Except.error "KeyError"
  else Except.ok c

/-- All section blocks, with fallible steps. -/
def sectionBlocksE (lines : List (List Char)) :
    List String → Except String (List (List Char))
  | [] => Except.ok []
  | s :: ss => do
    let c ← sectionContentE lines s
    let rest ← sectionBlocksE lines ss
    Except.ok ((headerLine s :: c) ++ rest)

/-- The full rebuild with fallible steps. -/
def structuredLinesE (ai : List Char) : Except String (List (List Char)) := do
  let blocks ← sectionBlocksE (normalizeLines (anchorTitle ai)) required_sections
  Except.ok (titleMarkerChars ::
    ((if titleLinesOf (normalizeLines (anchorTitle ai)) = [] then [defaultTitleBullet]
      else titleLinesOf (normalizeLines (anchorTitle ai))) ++ blocks))

/-- The strict algorithm with Python's raising operations explicit. -/
def text_to_project_notesE (r : String) : Except String String := do
  let ls ← structuredLinesE (pyStrip r.data)
  Except.ok (String.mk (joinNL ls))

lemma fmtLineE_ok {l : List Char} (h : l ≠ []) :
    fmtLineE l = Except.ok (fmtLine l) := by
  cases l with
  | nil => cases h rfl
  | cons c cs =>
    unfold fmtLineE fmtLine keepLine
    cases h1 : ("- ".data.isPrefixOf (c :: cs) || "* ".data.isPrefixOf (c :: cs)) with
    | true => simp [h1]
    | false =>
      cases h2 : c.isDigit with
      | true => simp [h1, h2]
      | false => simp [h1, h2]

lemma sectionScanE_ok (header : List Char) :
    ∀ (ls : List (List Char)) (b : Bool), (∀ l ∈ ls, l ≠ []) →
      sectionScanE header ls b = Except.ok (sectionScan header ls b) := by
  intro ls
  induction ls with
  | nil => intro b _; rfl
  | cons a rest ih =>
    intro b hne
    unfold sectionScanE sectionScan
    by_cases h1 : a = header
    · rw [if_pos h1, if_pos h1,
        ih true (fun l hl => hne l (List.mem_cons_of_mem _ hl))]
    · rw [if_neg h1, if_neg h1]
      by_cases h2 : (b && "## ".data.isPrefixOf a) = true
      · rw [if_pos h2, if_pos h2]
      · rw [if_neg h2, if_neg h2]
        by_cases h3 : b = true
        · rw [if_pos h3, if_pos h3, fmtLineE_ok (hne a (List.mem_cons_self ..)),
            ih b (fun l hl => hne l (List.mem_cons_of_mem _ hl))]
          rfl
        · rw [if_neg h3, if_neg h3,
            ih b (fun l hl => hne l (List.mem_cons_of_mem _ hl))]

lemma sectionContentE_ok (lines : List (List Char)) (hne : ∀ l ∈ lines, l ≠ [])
    (s : String) (hs : (List.lookup s placeholder_text).isSome = true) :
    sectionContentE lines s = Except.ok (sectionContent lines s) := by
  unfold sectionContentE sectionContent
  rw [sectionScanE_ok _ lines false hne]
  show (if sectionScan (headerLine s) lines false = [] then
          match List.lookup s placeholder_text with
          | some t => Except.ok ['-' :: ' ' :: t.data]
          | none => Except.error "KeyError"
        else Except.ok (sectionScan (headerLine s) lines false)) =
      Except.ok (if sectionScan (headerLine s) lines false = []
        then [placeholderLine s] else sectionScan (headerLine s) lines false)
  split
  · cases hl : List.lookup s placeholder_text with
    | none => rw [hl] at hs; simp at hs
    | some t =>
      have hp : placeholderLine s = '-' :: ' ' :: t.data := by
        unfold placeholderLine
        rw [hl]
        rfl
      rw [hp]
  · rfl

lemma sectionBlocksE_ok (lines : List (List Char)) (hne : ∀ l ∈ lines, l ≠ []) :
    ∀ ss : List String,
      (∀ s ∈ ss, (List.lookup s placeholder_text).isSome = true) →
      sectionBlocksE lines ss = Except.ok ((ss.map (sectionBlock lines)).flatten) := by
  intro ss
  induction ss with
  | nil => intro _; rfl
  | cons s rest ih =>
    intro hs
    unfold sectionBlocksE
    rw [sectionContentE_ok lines hne s (hs s (List.mem_cons_self ..)),
      ih (fun t ht => hs t (List.mem_cons_of_mem _ ht))]
    rfl

lemma placeholder_lookup_some : ∀ s ∈ required_sections,
    (List.lookup s placeholder_text).isSome = true := by decide

/-- C4: the strict normalisation pipeline is total — with the two
potentially raising operations (`line[0]` and the placeholder dictionary
access) modelled explicitly, every response string produces `ok` of exactly
the document the algorithm returns, so the error branch is unreachable. -/
theorem strict_pipeline_never_raises (r : String) :
    text_to_project_notesE r = Except.ok (text_to_project_notes r) := by
  have hne : ∀ l ∈ normalizeLines (anchorTitle (pyStrip r.data)), l ≠ [] :=
    fun l hl => cleanLine_ne_nil (normalizeLines_clean _ l hl)
  unfold text_to_project_notesE structuredLinesE
  rw [sectionBlocksE_ok _ hne required_sections placeholder_lookup_some]
  rfl

/-! ### Per-file processing (`process_files`, app.py 266-348) -/

/-- The extraction-marker test of app.py 308: extracted text beginning with
`"[ERROR"` or containing `"[UNSUPPORTED"`. -/
def isMarkerText (s : String) : Bool :=
  "[ERROR".data.isPrefixOf s.data ||
    (findSuffixFrom "[UNSUPPORTED".data s.data).isSome

/-- Outcome of the remote generation call made inside
`text_to_project_notes` (app.py 129-131). -/
inductive RemoteResult where
  | ok (response : String)
  | timeout
  | reqError (msg : String)

/-- The hard-coded fallback document returned by the `except` branch of
`text_to_project_notes` (app.py 195-219). -/
def fallback_document : String :=
  "# Project Title\n- AI Processing Failed\n\n## Goals / Objectives\n- Input too large or model unreachable\n\n## Key Features or Deliverables\n- Check Ollama and retry\n\n## Tasks and Steps\n- Reduce input size\n- Try simpler model\n\n## Estimated Timeline / Deadlines\n- Immediate\n\n## Resources / Tools Needed\n- Stable connection to Ollama\n\n## Potential Risks / Challenges\n- Timeout or model crash\n\n## Next Actions\n- Retry with shorter input\n"

/-- `text_to_project_notes` as a function of the remote call's outcome:
every exception, timeouts and request errors included, is caught inside the
function itself and replaced by the fallback document; a returned response
string is structured by the total pipeline (C4). -/
def text_to_project_notesR : RemoteResult → String
  | .ok resp => text_to_project_notes resp
  | .timeout => fallback_document
  | .reqError _ => fallback_document

/-- Outcome of the `extract_text` call at app.py 296: either the returned
string or an exception escaping it. -/
inductive ExtractOutcome where
  | ok (text : String)
  | raised (msg : String)

/-- One per-file entry of the `results` list. -/
structure FileResult where
  filename : String
  status : String
  error : Option String
  preview : Option String
  enhanced : Option String

/-- One uploaded file with the outcomes of its extraction and of its remote
generation call. -/
structure UploadFile where
  filename : String
  extract : ExtractOutcome
  remote : RemoteResult

/-- Server state: saved upload names and the outputs directory. -/
structure FS where
  uploads : List String
  outputs : List (String × String)

/-- Index of the last `'.'` in a name. -/
def lastDotIdx (cs : List Char) : Option Nat :=
  match cs.reverse.findIdx? (fun c => c == '.') with
  | some j => some (cs.length - 1 - j)
  | none => none

/-- `Path(name).stem`: the name without its suffix; the suffix starts at the
last dot index `i` only when `0 < i < len - 1`. -/
def stemOf (s : String) : String :=
  match lastDotIdx s.data with
  | some i =>
    if 0 < i ∧ i < s.data.length - 1 then String.mk (s.data.take i) else s
  | none => s

/-- `Path(name).suffix`. -/
def suffixOf (s : String) : String :=
  match lastDotIdx s.data with
  | some i =>
    if 0 < i ∧ i < s.data.length - 1 then String.mk (s.data.drop i) else ""
  | none => ""

lemma stem_append_suffix (s : String) : stemOf s ++ suffixOf s = s := by
  unfold stemOf suffixOf
  cases h : lastDotIdx s.data with
  | none => exact String.append_empty s
  | some i =>
    show (if 0 < i ∧ i < s.data.length - 1 then String.mk (s.data.take i) else s) ++
        (if 0 < i ∧ i < s.data.length - 1 then String.mk (s.data.drop i) else "") = s
    by_cases hc : 0 < i ∧ i < s.data.length - 1
    · rw [if_pos hc, if_pos hc]
      refine String.ext ?_
      rw [String.data_append]
      exact List.take_append_drop i s.data
    · rw [if_neg hc, if_neg hc]
      exact String.append_empty s

/-- The `k`-th candidate upload name (app.py 286-289): the original name,
then `f"{stem}_{k}{suffix}"`. -/
def candName (filename : String) (k : Nat) : String :=
  if k = 0 then filename
  else stemOf filename ++ "_" ++ toString k ++ suffixOf filename

/-- The while loop of app.py 288-290, with enough fuel to try one candidate
per existing upload plus one. -/
def findFreshName (uploads : List String) (filename : String) :
    Nat → Nat → String
  | 0, k => candName filename k
  | fuel + 1, k =>
    if uploads.contains (candName filename k) then
      findFreshName uploads filename fuel (k + 1)
    else candName filename k

/-- Overwriting write of an output file. -/
def writeOut (outs : List (String × String)) (p c : String) :
    List (String × String) :=
  (outs.filter (fun e => e.1 != p)) ++ [(p, c)]

/-- The loop body of `process_files` (app.py 281-343) for one file: save the
upload under a collision-free name, short-circuit on extraction failures and
markers, otherwise structure the notes and write them to
`outputs/{stem}.md`. -/
def process_one_file (fs : FS) (f : UploadFile) : FS × FileResult :=
  let saved := findFreshName fs.uploads f.filename (fs.uploads.length + 1) 0
  let fs1 : FS := { uploads := fs.uploads ++ [saved], outputs := fs.outputs }
  match f.extract with
  | .raised msg =>
    (fs1, ⟨f.filename, "failed", some ("Extract failed: " ++ msg), none, none⟩)
  | .ok raw =>
    if isMarkerText raw then
      (fs1, ⟨f.filename, "failed", some raw, none, none⟩)
    else
      let enhanced := text_to_project_notesR f.remote
      (({ uploads := fs1.uploads,
          outputs := writeOut fs1.outputs (stemOf f.filename ++ ".md") enhanced } : FS),
       ⟨f.filename, "success", none, some (String.mk (raw.data.take 300)),
        some enhanced⟩)

/-- `process_files` over a batch: per-file outcomes are accumulated
independently. -/
def process_files (fs : FS) : List UploadFile → FS × List FileResult
  | [] => (fs, [])
  | f :: rest =>
    let r1 := process_one_file fs f
    let r2 := process_files r1.1 rest
    (r2.1, r1.2 :: r2.2)

/-! ### Remote failures and per-file outcomes (C5, C6) -/

/-- C5 counterexample: when the generation call times out, the per-file
outcome is not a failure result. The exception is caught inside
`text_to_project_notes`, so the file is reported as a success carrying the
complete hard-coded fallback document. -/
theorem remote_timeout_not_failure_refuted :
    (process_one_file ⟨[], []⟩ ⟨"notes.txt", .ok "meeting notes", .timeout⟩).2.status
        = "success" ∧
    (process_one_file ⟨[], []⟩ ⟨"notes.txt", .ok "meeting notes", .timeout⟩).2.status
        ≠ "failed" ∧
    (process_one_file ⟨[], []⟩ ⟨"notes.txt", .ok "meeting notes", .timeout⟩).2.enhanced
        = some fallback_document := by
  decide

/-- C5 amended: on a timeout or any request error of the generation call,
the structuring scan is bypassed and the complete hard-coded fallback
document is substituted — but the per-file outcome is a success result
carrying the fallback document, which is also written to the output store;
the caller's failure branches for these exceptions are unreachable. -/
theorem remote_failure_success_with_fallback (fs : FS) (n raw msg : String)
    (h : isMarkerText raw = false) :
    ((process_one_file fs ⟨n, .ok raw, .timeout⟩).2.status = "success" ∧
     (process_one_file fs ⟨n, .ok raw, .timeout⟩).2.enhanced =
       some fallback_document ∧
     (process_one_file fs ⟨n, .ok raw, .timeout⟩).1.outputs =
       writeOut fs.outputs (stemOf n ++ ".md") fallback_document) ∧
    ((process_one_file fs ⟨n, .ok raw, .reqError msg⟩).2.status = "success" ∧
     (process_one_file fs ⟨n, .ok raw, .reqError msg⟩).2.enhanced =
       some fallback_document) := by
  refine ⟨⟨?_, ?_, ?_⟩, ?_, ?_⟩ <;>
    simp [process_one_file, h, text_to_project_notesR]

/-- C5 amended, witnessed at a concrete file and state. -/
theorem remote_failure_success_with_fallback_witness :
    ((process_one_file ⟨[], []⟩ ⟨"a.txt", .ok "notes", .timeout⟩).2.status
        = "success" ∧
     (process_one_file ⟨[], []⟩ ⟨"a.txt", .ok "notes", .timeout⟩).2.enhanced =
       some fallback_document ∧
     (process_one_file ⟨[], []⟩ ⟨"a.txt", .ok "notes", .timeout⟩).1.outputs =
       writeOut ([] : List (String × String)) (stemOf "a.txt" ++ ".md")
         fallback_document) ∧
    ((process_one_file ⟨[], []⟩ ⟨"a.txt", .ok "notes", .reqError "boom"⟩).2.status
        = "success" ∧
     (process_one_file ⟨[], []⟩ ⟨"a.txt", .ok "notes", .reqError "boom"⟩).2.enhanced =
       some fallback_document) :=
  remote_failure_success_with_fallback ⟨[], []⟩ "a.txt" "notes" "boom" (by decide)

/-- C6: the recognised extraction markers do short-circuit to a failed
result, but the OCR failure sentinel `"[OCR ERROR] ..."` produced by
`image_to_text_ocr` matches neither marker, so a failed image transcription
is not short-circuited: the error text is sent on to the AI step and the
file is reported as a success. -/
theorem ocr_error_marker_missed :
    isMarkerText "[ERROR: Could not read TXT] boom" = true ∧
    isMarkerText "[UNSUPPORTED FILE TYPE: .xyz] File not processed." = true ∧
    isMarkerText "[OCR ERROR] HTTPConnectionPool: connection refused" = false ∧
    (process_one_file ⟨[], []⟩
      ⟨"page.png", .ok "[OCR ERROR] HTTPConnectionPool: connection refused",
        .ok "plan"⟩).2.status = "success" ∧
    (process_one_file ⟨[], []⟩
      ⟨"page.png", .ok "[OCR ERROR] HTTPConnectionPool: connection refused",
        .ok "plan"⟩).2.enhanced = some (text_to_project_notes "plan") ∧
    (process_one_file ⟨[], []⟩
      ⟨"notes.xyz", .ok "[UNSUPPORTED FILE TYPE: .xyz] File not processed.",
        .ok "plan"⟩).2.status = "failed" := by
  decide

/-! ### Filename collisions and output overwriting (C10) -/

/-- C10: two distinct uploads sharing a filename are saved under distinct
names — the second gets the `_1` suffix on its stem — but both structured
documents are written to the markdown file named after the original stem, so
the second overwrites the first and a single output file remains. -/
theorem same_filename_output_overwrite (fname x1 x2 rm1 rm2 : String)
    (h1 : isMarkerText x1 = false) (h2 : isMarkerText x2 = false) :
    (process_files ⟨[], []⟩
        [⟨fname, .ok x1, .ok rm1⟩, ⟨fname, .ok x2, .ok rm2⟩]).1.uploads =
      [fname, candName fname 1] ∧
    candName fname 1 = stemOf fname ++ "_" ++ "1" ++ suffixOf fname ∧
    candName fname 1 ≠ fname ∧
    (process_files ⟨[], []⟩
        [⟨fname, .ok x1, .ok rm1⟩, ⟨fname, .ok x2, .ok rm2⟩]).1.outputs =
      [(stemOf fname ++ ".md", text_to_project_notes rm2)] := by
  have hcand : candName fname 1 = stemOf fname ++ "_" ++ "1" ++ suffixOf fname := rfl
  have hlen : (candName fname 1).length = fname.length + 2 := by
    rw [hcand]
    have hsa := congrArg String.length (stem_append_suffix fname)
    rw [String.length_append] at hsa
    rw [String.length_append, String.length_append, String.length_append]
    have hu : ("_" : String).length = 1 := rfl
    have ho : ("1" : String).length = 1 := rfl
    rw [hu, ho]
    omega
  have hneq : candName fname 1 ≠ fname := by
    intro he
    have hl2 := congrArg String.length he
    rw [hlen] at hl2
    omega
  have hsave1 : findFreshName [] fname 1 0 = fname := by
    simp [findFreshName, candName]
  have hsave2 : findFreshName [fname] fname 2 0 = candName fname 1 := by
    rw [show findFreshName [fname] fname 2 0 =
      (if [fname].contains (candName fname 0) then findFreshName [fname] fname 1 1
       else candName fname 0) from rfl]
    rw [if_pos (by simp [candName])]
    rw [show findFreshName [fname] fname 1 1 =
      (if [fname].contains (candName fname 1) then findFreshName [fname] fname 0 2
       else candName fname 1) from rfl]
    rw [if_neg (by simp [hneq])]
  have hp1 : process_one_file ⟨[], []⟩ ⟨fname, .ok x1, .ok rm1⟩ =
      (⟨[fname], [(stemOf fname ++ ".md", text_to_project_notes rm1)]⟩,
       ⟨fname, "success", none, some (String.mk (x1.data.take 300)),
        some (text_to_project_notes rm1)⟩) := by
    simp [process_one_file, h1, hsave1, writeOut, text_to_project_notesR]
  have hp2 : process_one_file ⟨[fname], [(stemOf fname ++ ".md",
        text_to_project_notes rm1)]⟩ ⟨fname, .ok x2, .ok rm2⟩ =
      (⟨[fname, candName fname 1],
        [(stemOf fname ++ ".md", text_to_project_notes rm2)]⟩,
       ⟨fname, "success", none, some (String.mk (x2.data.take 300)),
        some (text_to_project_notes rm2)⟩) := by
    simp [process_one_file, h2, hsave2, writeOut, text_to_project_notesR]
  refine ⟨?_, hcand, hneq, ?_⟩ <;>
    simp [process_files, hp1, hp2]

/-- C10, witnessed at two concrete same-named text files. -/
theorem same_filename_output_overwrite_witness :
    (process_files ⟨[], []⟩
        [⟨"notes.txt", .ok "alpha", .ok "one"⟩,
         ⟨"notes.txt", .ok "beta", .ok "two"⟩]).1.uploads =
      ["notes.txt", candName "notes.txt" 1] ∧
    candName "notes.txt" 1 =
      stemOf "notes.txt" ++ "_" ++ "1" ++ suffixOf "notes.txt" ∧
    candName "notes.txt" 1 ≠ "notes.txt" ∧
    (process_files ⟨[], []⟩
        [⟨"notes.txt", .ok "alpha", .ok "one"⟩,
         ⟨"notes.txt", .ok "beta", .ok "two"⟩]).1.outputs =
      [(stemOf "notes.txt" ++ ".md", text_to_project_notes "two")] :=
  same_filename_output_overwrite "notes.txt" "alpha" "beta" "one" "two"
    (by decide) (by decide)

/-! ### The permissive post-processor (C9) -/

/-- Modelled from the spec: the permissive structuring strategy of §4.2 is
absent from src/ — the repository's code only contains the strict rebuilder
— so its configuration data is modelled from the specification's wording:
a short allow-list of boilerplate lead-in phrases models step 1. -/
def leadInPhrases : List String := ["here is", "below is", "the following"]

/-- Modelled from the spec: the configured "next actions" header synonyms
of §4.2 step 2 (case-insensitive allow-list). -/
def nextActionSynonyms : List String := ["next steps", "next actions"]

/-- Modelled from the spec: the canonical appended "Next Steps" section
with two fixed placeholder bullets. -/
def next_steps_section : String :=
  "\n\n## Next Steps\n- Review the plan\n- Define next actions"

/-- Lower-cased code points for case-insensitive matching. -/
def lowerData (s : String) : List Char := s.data.map Char.toLower

/-- Modelled from the spec: remove at most the first line, when it starts
with one of the boilerplate lead-in phrases, case-insensitively
(§4.2 step 1). -/
def stripLeadIn (r : String) : String :=
  if leadInPhrases.any (fun p =>
      p.data.isPrefixOf ((r.data.takeWhile (fun c => c != '\n')).map Char.toLower))
  then String.mk ((r.data.dropWhile (fun c => c != '\n')).drop 1)
  else r

/-- Modelled from the spec: case-insensitive containment of one of the
"next actions" synonyms (§4.2 step 2). -/
def hasNextSyn (s : String) : Bool :=
  nextActionSynonyms.any (fun p => (findSuffixFrom p.data (lowerData s)).isSome)

/-- Modelled from the spec: the permissive post-processor (§4.2) — strip at
most one boilerplate lead-in line, then append the canonical section unless
the cleaned text already contains a synonym. -/
def permissive_post_process (r : String) : String :=
  if hasNextSyn (stripLeadIn r) then stripLeadIn r
  else stripLeadIn r ++ next_steps_section

/-- C9 counterexample: when the only occurrence of a "next actions" synonym
sits inside the stripped boilerplate lead-in line, the input contains a
synonym, yet the output is neither the input nor the input with the lead-in
stripped — the canonical section gets appended anyway, because the synonym
check runs on the cleaned text. -/
theorem permissive_synonym_in_leadin_refuted :
    hasNextSyn "Here is the next steps overview\nplan" = true ∧
    permissive_post_process "Here is the next steps overview\nplan" ≠
      "Here is the next steps overview\nplan" ∧
    permissive_post_process "Here is the next steps overview\nplan" ≠
      stripLeadIn "Here is the next steps overview\nplan" := by
  decide

/-- C9 amended: the synonym check runs on the cleaned text. If the text
left after lead-in stripping contains a synonym, the output is exactly that
cleaned text (the input with at most one boilerplate line removed,
otherwise unchanged); if not, the canonical Next Steps section is appended
to the cleaned text, and when no lead-in line was stripped the output is
the input extended by the canonical section, hence strictly longer. The
spec's concrete scenario also holds. -/
theorem permissive_post_process_behaviour (r : String) :
    (hasNextSyn (stripLeadIn r) = true →
      permissive_post_process r = stripLeadIn r) ∧
    (hasNextSyn (stripLeadIn r) = false →
      permissive_post_process r = stripLeadIn r ++ next_steps_section ∧
      (stripLeadIn r = r →
        permissive_post_process r = r ++ next_steps_section ∧
        r.length < (permissive_post_process r).length)) ∧
    permissive_post_process "Here is the plan:\n## Next Steps\n- Ship it" =
      "## Next Steps\n- Ship it" := by
  refine ⟨?_, ?_, by decide⟩
  · intro h
    unfold permissive_post_process
    rw [if_pos h]
  · intro h
    have h1 : permissive_post_process r = stripLeadIn r ++ next_steps_section := by
      unfold permissive_post_process
      rw [if_neg (by simp [h])]
    refine ⟨h1, ?_⟩
    intro h2
    rw [h1, h2]
    refine ⟨rfl, ?_⟩
    rw [String.length_append]
    have h3 : 0 < next_steps_section.length := by decide
    omega

/-- C9 amended, witnessed at a response with no lead-in and no synonym. -/
theorem permissive_post_process_behaviour_witness :
    permissive_post_process "plan" = "plan" ++ next_steps_section ∧
    "plan".length < (permissive_post_process "plan").length :=
  ((permissive_post_process_behaviour "plan").2.1 (by decide)).2 (by decide)

